import Mathlib

/-!
# Verification of the Requirements Aggregator core

Shallow embedding of `file_discovery.py` / `requirements_aggregator.py` /
`output_handler.py`:

* a filesystem directory tree is an inductive `FSTree`; `os.walk` becomes
  `walkEntries`, yielding `(root path, files)` pairs top-down;
* paths are lists of components; `os.path.join root "requirements.txt"` is
  `p ++ ["requirements.txt"]`, `os.path.dirname` is `List.dropLast`,
  `os.path.relpath` is `relpath` (common prefix, `..` for what remains of the
  base, then the rest; `"."` when nothing remains);
* a root directory that does not exist or is unreadable is the `none` case of
  `Option FSTree` — `os.walk` with its default `onerror=None` yields no
  entries there;
* file reading in `aggregate_requirements` is a map `fs` from a path to
  `Option (List String)` (the file's lines, as produced by `readlines`);
  `none` means the `open` call raises, which the embedding renders as
  `Except.error` — the Python exception propagates and no dict is returned;
* the Python `dict` (insertion-ordered) is an association list
  `List (String × List String)` updated by `dictAppend`.
-/

namespace ReqAgg

/-- A directory in a filesystem tree: its name, the plain files directly in
it, and its subdirectories. -/
inductive FSTree where
  | mk (name : String) (files : List String) (subdirs : List FSTree)

def FSTree.name : FSTree → String
  | .mk n _ _ => n

def FSTree.files : FSTree → List String
  | .mk _ f _ => f

def FSTree.subdirs : FSTree → List FSTree
  | .mk _ _ s => s

mutual
/-- `os.walk` (top-down, default order): the directory at path `p` itself,
then its subtrees.  Each entry is `(root, files)`; the Python code ignores
the `dirs` component of the triple. -/
def walkEntries (p : List String) : FSTree → List (List String × List String)
  | .mk _ files subs => (p, files) :: walkList p subs

def walkList (p : List String) : List FSTree → List (List String × List String)
  | [] => []
  | t :: ts => walkEntries (p ++ [t.name]) t ++ walkList p ts
end

/-- Render a component path as a string, `os.sep` taken as `"/"`. -/
def joinPath (p : List String) : String := String.intercalate "/" p

/-- State of the `for root, _, files in os.walk(...)` loop in
`find_requirements_files`: the accumulator list, the `depth` variable (only
ever decremented), and the `count` of directories scanned. -/
structure ScanState where
  requirements_files : List (List String)
  depth : Int
  count : Nat

/-- One iteration of the walk loop: append `root/requirements.txt` when
present, then run `for _ in root.split(os.sep): depth -= 1` and
`count += 1`.  (The `print` every 50 directories is console-only.) -/
def scanStep (st : ScanState) (entry : List String × List String) : ScanState :=
  let st' :=
    if "requirements.txt" ∈ entry.2 then
      { st with requirements_files :=
          st.requirements_files ++ [entry.1 ++ ["requirements.txt"]] }
    else st
  { st' with
    depth := st'.depth - (((joinPath entry.1).splitOn "/").length : Int),
    count := st'.count + 1 }

/-- `find_requirements_files(base_dir, depth)` from `file_discovery.py`.
`root = none` models a base directory that does not exist or cannot be
listed: `os.walk`, with its default `onerror=None`, then yields nothing. -/
def find_requirements_files (root : Option FSTree) (base_dir : List String)
    (depth : Int) : List (List String) :=
  let entries := match root with
    | none => []
    | some t => walkEntries base_dir t
  (entries.foldl scanStep ⟨[], depth, 0⟩).requirements_files

/-- `os.path.dirname`: drop the last path component. -/
def dirname (p : List String) : List String := p.dropLast

/-- Length of the longest common component prefix of two paths. -/
def commonPrefixLen : List String → List String → Nat
  | a :: as, b :: bs => if a = b then commonPrefixLen as bs + 1 else 0
  | _, _ => 0

/-- `os.path.relpath(p, base)` on normalized component paths: strip the
common prefix, climb out of what remains of `base` with `..`, then descend
into what remains of `p`; `os.curdir` (`"."`) when nothing remains. -/
def relpath (p base : List String) : String :=
  let k := commonPrefixLen p base
  let parts := List.replicate (base.length - k) ".." ++ p.drop k
  if parts = [] then "." else String.intercalate "/" parts

/-- The `dict` update in the aggregation loop:
`if line in d: d[line].append(rel) else: d[line] = [rel]`, on an
insertion-ordered association list. -/
def dictAppend (d : List (String × List String)) (k v : String) :
    List (String × List String) :=
  if d.any (fun p => p.1 = k) then
    d.map (fun p => if p.1 = k then (p.1, p.2 ++ [v]) else p)
  else
    d ++ [(k, [v])]

/-- The whitespace characters `str.strip()` removes (its ASCII set:
space, tab, newline, carriage return, vertical tab, form feed). -/
def isPyWhitespace (c : Char) : Bool :=
  c == ' ' || c == '\t' || c == '\n' || c == '\r' ||
  c == '\x0b' || c == '\x0c'

/-- `line.strip()`: drop whitespace from both ends. -/
def pystrip (s : String) : String :=
  String.mk
    (((s.data.dropWhile isPyWhitespace).reverse.dropWhile isPyWhitespace).reverse)

/-- `line.startswith("#")`: the first character is `#`. -/
def startsWithHash (s : String) : Bool := s.data.head? == some '#'

/-- One line of one manifest: `line = line.strip()`, then
`if line and not line.startswith("#")` guards the dict update. -/
def processLine (rel : String) (d : List (String × List String))
    (line : String) : List (String × List String) :=
  let l := pystrip line
  if l ≠ "" ∧ ¬ startsWithHash l then dictAppend d l rel else d

/-- The loop body of `aggregate_requirements`, one recursive step per
`req_file`.  `fs` maps a path to the lines `f.readlines()` would yield;
`none` means `open` raises `OSError`, which aborts the whole call — the
embedding returns `Except.error` and the dict built so far is discarded. -/
def aggregate_go (base_dir : List String)
    (fs : List String → Option (List String)) :
    List (List String) → List (String × List String) →
    Except String (List (String × List String))
  | [], d => .ok d
  | req_file :: rest, d =>
    match fs req_file with
    | none => .error (joinPath req_file)
    | some lines =>
      aggregate_go base_dir fs rest
        (lines.foldl (processLine (relpath (dirname req_file) base_dir)) d)

/-- `aggregate_requirements(requirements_files, base_dir)` from
`file_discovery.py`. -/
def aggregate_requirements (requirements_files : List (List String))
    (base_dir : List String) (fs : List String → Option (List String)) :
    Except String (List (String × List String)) :=
  aggregate_go base_dir fs requirements_files []

/-- `sanitize_path(path)` from `output_handler.py`:
`"".join([char for char in path if ord(char) > 31 or ord(char) == 9])`. -/
def sanitize_path (path : String) : String :=
  String.mk (path.data.filter (fun char => 31 < char.toNat || char.toNat == 9))

/-- `aggregated_data[pkg]` for a key known to be present (Python dict keys
are unique; on the association list the first binding is the one). -/
def dictGet (d : List (String × List String)) (k : String) : List String :=
  ((d.find? (fun p => p.1 = k)).map (fun p => p.2)).getD []

/-- The matrix built by `generate_dependency_matrix(aggregated_data, ...)`
before it is written to `requirements_overview.csv`: the header row
`["Directory"] + list(aggregated_data.keys())`, then one row per directory
in `unique_dirs`.  Python's `list(set(...))` has unspecified order; it is
modelled as order-of-first-occurrence deduplication. -/
def generate_dependency_matrix (aggregated_data : List (String × List String)) :
    List (List String) :=
  let header := "Directory" :: aggregated_data.map (fun p => p.1)
  let unique_dirs := (aggregated_data.map (fun p => p.2)).flatten.dedup
  header :: unique_dirs.map (fun directory =>
    directory :: (aggregated_data.map (fun p => p.1)).map (fun pkg =>
      if directory ∈ dictGet aggregated_data pkg then "X" else ""))

/-! ## Helper lemmas about the walk loop -/

/-- The effect of one walk-loop iteration on the accumulator alone. -/
def scanFiles (acc : List (List String)) (e : List String × List String) :
    List (List String) :=
  if "requirements.txt" ∈ e.2 then acc ++ [e.1 ++ ["requirements.txt"]] else acc

theorem scanStep_files (st : ScanState) (e : List String × List String) :
    (scanStep st e).requirements_files = scanFiles st.requirements_files e := by
  simp only [scanStep, scanFiles]
  split <;> rfl

theorem foldl_scanStep_files (entries : List (List String × List String)) :
    ∀ st : ScanState,
      (entries.foldl scanStep st).requirements_files =
        entries.foldl scanFiles st.requirements_files := by
  induction entries with
  | nil => intro st; rfl
  | cons e es ih =>
      intro st
      simp only [List.foldl_cons, ih, scanStep_files]

theorem mem_foldl_scanFiles (entries : List (List String × List String)) :
    ∀ acc p, p ∈ entries.foldl scanFiles acc →
      p ∈ acc ∨ ∃ e ∈ entries, "requirements.txt" ∈ e.2 ∧
        p = e.1 ++ ["requirements.txt"] := by
  induction entries with
  | nil => intro acc p h; exact Or.inl h
  | cons e es ih =>
      intro acc p h
      rcases ih _ p h with h' | ⟨e', he', hm, hp⟩
      · by_cases hmem : "requirements.txt" ∈ e.2
        · simp only [scanFiles, if_pos hmem, List.mem_append,
            List.mem_singleton] at h'
          rcases h' with h' | h'
          · exact Or.inl h'
          · exact Or.inr ⟨e, List.mem_cons_self e es, hmem, h'⟩
        · simp only [scanFiles, if_neg hmem] at h'
          exact Or.inl h'
      · exact Or.inr ⟨e', List.mem_cons_of_mem e he', hm, hp⟩

mutual
theorem walkEntries_below : ∀ (p : List String) (t : FSTree),
    ∀ e ∈ walkEntries p t, p <+: e.1
  | p, .mk _ files subs, e, he => by
    rw [walkEntries] at he
    rcases List.mem_cons.mp he with h | h
    · rw [h]
    · exact walkList_below p subs e h

theorem walkList_below : ∀ (p : List String) (ts : List FSTree),
    ∀ e ∈ walkList p ts, p <+: e.1
  | p, t :: ts, e, he => by
    rw [walkList] at he
    rcases List.mem_append.mp he with h | h
    · exact (List.prefix_append p [t.name]).trans
        (walkEntries_below (p ++ [t.name]) t e h)
    · exact walkList_below p ts e h
end

/-! ## Concrete inputs used by witnesses and counterexamples -/

/-- A root directory with no manifest of its own and one subdirectory
`sub` containing `requirements.txt`. -/
def demoTree : FSTree := .mk "root" [] [.mk "sub" ["requirements.txt"] []]

/-! ## Claims about the Locator -/

/-- C1: the spec requires `find_requirements_files` with depth 0 to return
only manifests of the root directory itself, and the function's own
docstring says it searches "up to a specified depth"; but the code only
decrements `depth` in a dead loop and never consults it, so at depth 0 the
manifest of the subdirectory `sub` is still returned. -/
theorem find_depth_zero_returns_subdir_manifest :
    find_requirements_files (some demoTree) ["root"] 0 =
      [["root", "sub", "requirements.txt"]] := rfl

/-- C2 counterexample: for a root directory that does not exist (or cannot
be listed), the scan does not fail — `os.walk` with its default
`onerror=None` yields no entries, and `find_requirements_files` silently
returns the empty list. -/
theorem find_missing_root_silently_empty :
    find_requirements_files none ["missing"] 2 = [] := rfl

/-- C2 amended: if the root directory does not exist or is not readable,
`find_requirements_files` raises no error and aborts nothing; it silently
succeeds with an empty result, for every base path and depth. -/
theorem find_missing_root_returns_nil :
    ∀ (base_dir : List String) (depth : Int),
      find_requirements_files none base_dir depth = [] :=
  fun _ _ => rfl

/-- C10: the depth argument has no influence whatsoever on the result of
`find_requirements_files` — it is decremented internally but never
consulted — so any two depths give the same list. -/
theorem find_requirements_files_depth_irrelevant :
    ∀ (root : Option FSTree) (base_dir : List String) (d₁ d₂ : Int),
      find_requirements_files root base_dir d₁ =
        find_requirements_files root base_dir d₂ := by
  intro root base d₁ d₂
  unfold find_requirements_files
  cases root <;> simp only [foldl_scanStep_files]

/-- C9: every path returned by `find_requirements_files` lies inside the
tree rooted at the base directory (the base path is a prefix of it), and it
names a file literally called `requirements.txt` present in some visited
directory of the walk. -/
theorem find_requirements_files_within_tree :
    ∀ (t : FSTree) (base_dir : List String) (depth : Int) (p : List String),
      p ∈ find_requirements_files (some t) base_dir depth →
      base_dir <+: p ∧ ∃ e ∈ walkEntries base_dir t,
        "requirements.txt" ∈ e.2 ∧ p = e.1 ++ ["requirements.txt"] := by
  intro t base depth p hp
  unfold find_requirements_files at hp
  rw [foldl_scanStep_files] at hp
  rcases mem_foldl_scanFiles _ _ _ hp with h | ⟨e, he, hm, hpe⟩
  · cases h
  · refine ⟨?_, e, he, hm, hpe⟩
    rw [hpe]
    exact (walkEntries_below base t e he).trans (List.prefix_append e.1 _)

/-- C9 witness: the containment theorem applied to the concrete tree
`demoTree` at its returned manifest path. -/
theorem find_requirements_files_within_tree_witness :
    (["root", "sub", "requirements.txt"] ∈
        find_requirements_files (some demoTree) ["root"] 0) ∧
      (["root"] <+: ["root", "sub", "requirements.txt"] ∧
        ∃ e ∈ walkEntries ["root"] demoTree, "requirements.txt" ∈ e.2 ∧
          ["root", "sub", "requirements.txt"] = e.1 ++ ["requirements.txt"]) :=
  ⟨by decide,
   find_requirements_files_within_tree demoTree ["root"] 0 _ (by decide)⟩

/-! ## Helper lemmas about the aggregation dict -/

theorem mem_dictAppend_key (d : List (String × List String)) (k v : String)
    (k' : String) (v' : List String) (h : (k', v') ∈ dictAppend d k v) :
    k' ∈ d.map Prod.fst ∨ (k' = k ∧ v' = [v]) := by
  unfold dictAppend at h
  split at h
  · rcases List.mem_map.mp h with ⟨p, hp, hpe⟩
    left
    have h1 : p.1 = k' := by
      have h2 := congrArg Prod.fst hpe
      by_cases hc : p.1 = k
      · simp [hc] at h2
        exact hc.trans h2
      · simp [hc] at h2
        exact h2
    exact h1 ▸ List.mem_map_of_mem Prod.fst hp
  · rcases List.mem_append.mp h with h' | h'
    · exact Or.inl (List.mem_map_of_mem Prod.fst h')
    · rcases List.mem_singleton.mp h' with h''
      exact Or.inr ⟨(congrArg Prod.fst h'').symm.symm, congrArg Prod.snd h''⟩

theorem mem_processLine_key (rel : String) (d : List (String × List String))
    (line : String) (k' : String) (v' : List String)
    (h : (k', v') ∈ processLine rel d line) :
    k' ∈ d.map Prod.fst ∨
      (k' = pystrip line ∧ k' ≠ "" ∧ ¬ startsWithHash k') := by
  simp only [processLine] at h
  split at h
  · rename_i hc
    rcases mem_dictAppend_key _ _ _ _ _ h with h' | ⟨hk, _⟩
    · exact Or.inl h'
    · exact Or.inr ⟨hk, hk ▸ hc.1, hk ▸ hc.2⟩
  · exact Or.inl (List.mem_map_of_mem Prod.fst h)

theorem mem_foldl_processLine_key (rel : String) (lines : List String) :
    ∀ (d : List (String × List String)) (k' : String) (v' : List String),
      (k', v') ∈ lines.foldl (processLine rel) d →
      k' ∈ d.map Prod.fst ∨
        ∃ l ∈ lines, k' = pystrip l ∧ k' ≠ "" ∧ ¬ startsWithHash k' := by
  induction lines with
  | nil => intro d k' v' h; exact Or.inl (List.mem_map_of_mem Prod.fst h)
  | cons l ls ih =>
      intro d k' v' h
      rcases ih _ k' v' h with h' | ⟨l', hl', hs⟩
      · rcases List.mem_map.mp h' with ⟨p, hp, hpk⟩
        rcases mem_processLine_key rel d l p.1 p.2 hp with h'' | h''
        · exact Or.inl (hpk ▸ h'')
        · exact Or.inr ⟨l, List.mem_cons_self l ls, hpk ▸ h''⟩
      · exact Or.inr ⟨l', List.mem_cons_of_mem l hl', hs⟩

theorem aggregate_go_key_origin (base_dir : List String)
    (fs : List String → Option (List String)) :
    ∀ (files : List (List String)) (d out : List (String × List String)),
      aggregate_go base_dir fs files d = .ok out →
      ∀ (k : String) (v : List String), (k, v) ∈ out →
        k ∈ d.map Prod.fst ∨
          ∃ f ∈ files, ∃ lines, fs f = some lines ∧
            ∃ l ∈ lines, k = pystrip l ∧ k ≠ "" ∧ ¬ startsWithHash k := by
  intro files
  induction files with
  | nil =>
      intro d out h k v hkv
      cases h
      exact Or.inl (List.mem_map_of_mem Prod.fst hkv)
  | cons f rest ih =>
      intro d out h k v hkv
      unfold aggregate_go at h
      cases hfs : fs f with
      | none => rw [hfs] at h; cases h
      | some lines =>
          rw [hfs] at h
          rcases ih _ out h k v hkv with h' | ⟨f', hf', w⟩
          · rcases List.mem_map.mp h' with ⟨p, hp, hpk⟩
            rcases mem_foldl_processLine_key _ lines d p.1 p.2 hp with
              h'' | ⟨l, hl, hs⟩
            · exact Or.inl (hpk ▸ h'')
            · exact Or.inr ⟨f, List.mem_cons_self f rest, lines, hfs,
                l, hl, hpk ▸ hs⟩
          · exact Or.inr ⟨f', List.mem_cons_of_mem f hf', w⟩

/-! ## Concrete aggregation scenario -/

/-- The two manifest paths of the flask/requests scenario. -/
def demoFiles : List (List String) :=
  [["root", "a", "requirements.txt"], ["root", "b", "requirements.txt"]]

/-- The scenario filesystem: `a/requirements.txt` holds `flask==2.0`,
`b/requirements.txt` holds `flask==2.0` and `requests`; nothing else is
readable. -/
def demoFs (p : List String) : Option (List String) :=
  if p = ["root", "a", "requirements.txt"] then some ["flask==2.0\n"]
  else if p = ["root", "b", "requirements.txt"] then
    some ["flask==2.0\n", "requests\n"]
  else none

/-- The expected aggregation result of the scenario. -/
def demoOut : List (String × List String) :=
  [("flask==2.0", ["a", "b"]), ("requests", ["b"])]

/-! ## Claims about the Aggregator -/

/-- C3: on the scenario where `a/requirements.txt` holds the single line
`flask==2.0` and `b/requirements.txt` holds `flask==2.0` and `requests`,
`aggregate_requirements` with the root as base directory returns exactly
the mapping `flask==2.0 ↦ [a, b]`, `requests ↦ [b]`, with directory
identifiers relative to the root. -/
theorem aggregate_flask_requests_scenario :
    aggregate_requirements demoFiles ["root"] demoFs =
      .ok [("flask==2.0", ["a", "b"]), ("requests", ["b"])] := rfl

/-- C4: every key of an aggregation result is some line of some input
manifest with surrounding whitespace stripped, is non-empty after
stripping, and does not start with `#`. -/
theorem aggregate_keys_are_stripped_lines :
    ∀ (files : List (List String)) (base_dir : List String)
      (fs : List String → Option (List String))
      (out : List (String × List String)),
      aggregate_requirements files base_dir fs = .ok out →
      ∀ (k : String) (v : List String), (k, v) ∈ out →
        (∃ f ∈ files, ∃ lines, fs f = some lines ∧ ∃ l ∈ lines, k = pystrip l) ∧
          k ≠ "" ∧ ¬ startsWithHash k := by
  intro files base fs out h k v hkv
  rcases aggregate_go_key_origin base fs files [] out h k v hkv with h' | h'
  · cases h'
  · rcases h' with ⟨f, hf, lines, hlines, l, hl, hk, hne, hhash⟩
    exact ⟨⟨f, hf, lines, hlines, l, hl, hk⟩, hne, hhash⟩

/-- C4 witness: the key-origin theorem applied to the key `requests` of
the concrete flask/requests scenario. -/
theorem aggregate_keys_are_stripped_lines_witness :
    (aggregate_requirements demoFiles ["root"] demoFs = .ok demoOut) ∧
      (("requests", ["b"]) ∈ demoOut) ∧
      ((∃ f ∈ demoFiles, ∃ lines, demoFs f = some lines ∧
          ∃ l ∈ lines, "requests" = pystrip l) ∧
        "requests" ≠ "" ∧ ¬ startsWithHash "requests") :=
  ⟨rfl, by decide,
   aggregate_keys_are_stripped_lines demoFiles ["root"] demoFs demoOut rfl
     "requests" ["b"] (by decide)⟩

theorem dictAppend_values_ne_nil (d : List (String × List String))
    (k v : String) (h : ∀ kv ∈ d, kv.2 ≠ []) :
    ∀ kv ∈ dictAppend d k v, kv.2 ≠ [] := by
  intro kv hkv
  unfold dictAppend at hkv
  split at hkv
  · rcases List.mem_map.mp hkv with ⟨p, hp, hpe⟩
    by_cases hc : p.1 = k
    · rw [if_pos hc] at hpe
      rw [← hpe]
      simp
    · rw [if_neg hc] at hpe
      exact hpe ▸ h p hp
  · rcases List.mem_append.mp hkv with h' | h'
    · exact h kv h'
    · rcases List.mem_singleton.mp h' with h''
      rw [h'']
      simp

theorem foldl_processLine_values_ne_nil (rel : String) (lines : List String) :
    ∀ d : List (String × List String), (∀ kv ∈ d, kv.2 ≠ []) →
      ∀ kv ∈ lines.foldl (processLine rel) d, kv.2 ≠ [] := by
  induction lines with
  | nil => intro d h kv hkv; exact h kv hkv
  | cons l ls ih =>
      intro d h kv hkv
      refine ih _ ?_ kv hkv
      intro kv' hkv'
      simp only [processLine] at hkv'
      split at hkv'
      · exact dictAppend_values_ne_nil d _ rel h kv' hkv'
      · exact h kv' hkv'

theorem aggregate_go_values_ne_nil (base_dir : List String)
    (fs : List String → Option (List String)) :
    ∀ (files : List (List String)) (d out : List (String × List String)),
      aggregate_go base_dir fs files d = .ok out →
      (∀ kv ∈ d, kv.2 ≠ []) → ∀ kv ∈ out, kv.2 ≠ [] := by
  intro files
  induction files with
  | nil =>
      intro d out h hd kv hkv
      cases h
      exact hd kv hkv
  | cons f rest ih =>
      intro d out h hd kv hkv
      unfold aggregate_go at h
      cases hfs : fs f with
      | none => rw [hfs] at h; cases h
      | some lines =>
          rw [hfs] at h
          exact ih _ out h
            (foldl_processLine_values_ne_nil _ lines d hd) kv hkv

theorem dictAppend_keeps_keys (d : List (String × List String))
    (k v : String) (k' : String) (h : k' ∈ d.map Prod.fst) :
    k' ∈ (dictAppend d k v).map Prod.fst := by
  rcases List.mem_map.mp h with ⟨p, hp, hpk⟩
  unfold dictAppend
  split
  · refine List.mem_map.mpr
      ⟨if p.1 = k then (p.1, p.2 ++ [v]) else p, List.mem_map_of_mem _ hp, ?_⟩
    rw [← hpk]
    by_cases hc : p.1 = k
    · rw [if_pos hc]
    · rw [if_neg hc]
  · rw [List.map_append]
    exact List.mem_append_left _ (List.mem_map.mpr ⟨p, hp, hpk⟩)

theorem dictAppend_appends (d : List (String × List String))
    (k v : String) (ds : List String) (h : (k, ds) ∈ d) :
    (k, ds ++ [v]) ∈ dictAppend d k v := by
  have hany : (d.any fun p => p.1 = k) = true :=
    List.any_eq_true.mpr ⟨(k, ds), h, by simp⟩
  unfold dictAppend
  rw [if_pos hany]
  refine List.mem_map.mpr ⟨(k, ds), h, ?_⟩
  simp

/-- C5: in every aggregation result every key maps to a non-empty list of
directory identifiers; the dict update never removes a key; and when a
package line recurs, the current directory identifier is appended to the
key's existing list. -/
theorem aggregate_values_nonempty_and_append :
    (∀ (files : List (List String)) (base_dir : List String)
        (fs : List String → Option (List String))
        (out : List (String × List String)),
        aggregate_requirements files base_dir fs = .ok out →
        ∀ kv ∈ out, kv.2 ≠ []) ∧
      (∀ (d : List (String × List String)) (k v k' : String),
        k' ∈ d.map Prod.fst → k' ∈ (dictAppend d k v).map Prod.fst) ∧
      (∀ (d : List (String × List String)) (k v : String) (ds : List String),
        (k, ds) ∈ d → (k, ds ++ [v]) ∈ dictAppend d k v) :=
  ⟨fun files base fs out h =>
      aggregate_go_values_ne_nil base fs files [] out h (by intro kv hkv; cases hkv),
   dictAppend_keeps_keys, dictAppend_appends⟩

/-- C5 witness: the three parts applied to the concrete flask/requests
scenario and to a concrete dict update. -/
theorem aggregate_values_nonempty_and_append_witness :
    (aggregate_requirements demoFiles ["root"] demoFs = .ok demoOut) ∧
      ((["b"] : List String) ≠ []) ∧
      ("flask==2.0" ∈
        (dictAppend [("flask==2.0", ["a"])] "requests" "b").map Prod.fst) ∧
      (("flask==2.0", ["a", "b"]) ∈
        dictAppend [("flask==2.0", ["a"])] "flask==2.0" "b") :=
  ⟨rfl,
   aggregate_values_nonempty_and_append.1 demoFiles ["root"] demoFs demoOut
     rfl ("requests", ["b"]) (by decide),
   aggregate_values_nonempty_and_append.2.1 _ "requests" "b" "flask==2.0"
     (by decide),
   aggregate_values_nonempty_and_append.2.2 _ "flask==2.0" "b" ["a"]
     (by decide)⟩

theorem aggregate_go_error_on_missing (base_dir : List String)
    (fs : List String → Option (List String)) :
    ∀ (files : List (List String)) (d : List (String × List String)),
      (∃ f ∈ files, fs f = none) →
      ∃ e, aggregate_go base_dir fs files d = .error e := by
  intro files
  induction files with
  | nil =>
      intro d h
      rcases h with ⟨f, hf, _⟩
      cases hf
  | cons f rest ih =>
      intro d h
      cases hfs : fs f with
      | none => exact ⟨joinPath f, by unfold aggregate_go; rw [hfs]⟩
      | some lines =>
          rcases h with ⟨f', hf', hnone⟩
          rcases List.mem_cons.mp hf' with h' | h'
          · rw [h', hfs] at hnone
            cases hnone
          · rcases ih _ ⟨f', h', hnone⟩ with ⟨e, he⟩
            exact ⟨e, by unfold aggregate_go; rw [hfs]; exact he⟩

/-- C8: if any manifest path is unreadable when opened, aggregation fails
with a read error and never returns a mapping: no partial result built from
the manifests processed before the failure is delivered. -/
theorem aggregate_unreadable_aborts :
    ∀ (files : List (List String)) (base_dir : List String)
      (fs : List String → Option (List String)),
      (∃ f ∈ files, fs f = none) →
      (∃ e, aggregate_requirements files base_dir fs = .error e) ∧
        ∀ out, aggregate_requirements files base_dir fs ≠ .ok out := by
  intro files base fs h
  rcases aggregate_go_error_on_missing base fs files [] h with ⟨e, he⟩
  refine ⟨⟨e, he⟩, ?_⟩
  intro out hok
  rw [aggregate_requirements] at hok
  rw [hok] at he
  cases he

/-- C8 witness: the abort theorem applied to a manifest list whose second
path is unreadable in the scenario filesystem. -/
theorem aggregate_unreadable_aborts_witness :
    (demoFs ["root", "c", "requirements.txt"] = none) ∧
      ∃ e, aggregate_requirements
        [["root", "a", "requirements.txt"], ["root", "c", "requirements.txt"]]
        ["root"] demoFs = .error e :=
  ⟨rfl,
   (aggregate_unreadable_aborts
     [["root", "a", "requirements.txt"], ["root", "c", "requirements.txt"]]
     ["root"] demoFs
     ⟨["root", "c", "requirements.txt"], by decide, rfl⟩).1⟩

/-! ## Claims about the output handler -/

/-- C6: `sanitize_path` removes exactly the characters whose codepoint is
at most 31, except horizontal tab (codepoint 9), which is preserved; in
particular a BEL is dropped and a tab survives. -/
theorem sanitize_path_strips_controls :
    (∀ s : String, (sanitize_path s).data =
        s.data.filter fun c => !(decide (c.toNat ≤ 31) && !(c.toNat == 9))) ∧
      sanitize_path "foo\x07bar" = "foobar" ∧
      sanitize_path "foo\tbar" = "foo\tbar" := by
  refine ⟨?_, rfl, rfl⟩
  intro s
  unfold sanitize_path
  refine List.filter_congr ?_
  intro c _
  by_cases h9 : c.toNat = 9
  · simp [h9]
  · by_cases h31 : c.toNat ≤ 31
    · simp [h9, h31, Nat.not_lt.mpr h31]
    · simp [h9, h31, Nat.lt_of_not_le h31]

theorem dictGet_of_nodup :
    ∀ d : List (String × List String), (d.map Prod.fst).Nodup →
      ∀ p ∈ d, dictGet d p.1 = p.2 := by
  intro d
  induction d with
  | nil => intro _ p hp; cases hp
  | cons q rest ih =>
      intro hnd p hp
      rcases List.mem_cons.mp hp with h | h
      · rw [h]
        simp [dictGet, List.find?]
      · have hne : ¬ q.1 = p.1 := by
          intro he
          have : p.1 ∈ rest.map Prod.fst := List.mem_map_of_mem Prod.fst h
          rw [List.map_cons] at hnd
          exact (List.nodup_cons.mp hnd).1 (he ▸ this)
        have htail := (List.nodup_cons.mp (List.map_cons Prod.fst q rest ▸ hnd)).2
        simpa [dictGet, List.find?, hne] using ih htail p h

/-- C7: the presence matrix has a header row `Directory` followed by the
package keys in first-encountered order, and one row per distinct
directory identifier whose first cell is the directory and whose cell for
each package is `X` exactly when the directory occurs in that package's
directory list; on the flask/requests scenario it is the concrete
3×3 matrix. -/
theorem generate_dependency_matrix_spec :
    (∀ agg : List (String × List String), (agg.map Prod.fst).Nodup →
        (generate_dependency_matrix agg).head? =
            some ("Directory" :: agg.map Prod.fst) ∧
          ((generate_dependency_matrix agg).tail.map fun row => row.head?) =
            ((agg.map Prod.snd).flatten.dedup.map fun d => some d) ∧
          ∀ row ∈ (generate_dependency_matrix agg).tail, ∀ dir : String,
            row.head? = some dir →
            row = dir :: (agg.map fun p => if dir ∈ p.2 then "X" else "")) ∧
      generate_dependency_matrix
          [("flask==2.0", ["a", "b"]), ("requests", ["b"])] =
        [["Directory", "flask==2.0", "requests"],
          ["a", "X", ""], ["b", "X", "X"]] := by
  refine ⟨?_, rfl⟩
  intro agg hnd
  refine ⟨rfl, ?_, ?_⟩
  · simp only [generate_dependency_matrix, List.tail_cons, List.map_map]
    rfl
  · intro row hrow dir hdir
    simp only [generate_dependency_matrix, List.tail_cons] at hrow
    rcases List.mem_map.mp hrow with ⟨d0, _, hd0⟩
    have hdir0 : d0 = dir := by
      rw [← hd0] at hdir
      exact Option.some.inj hdir
    rw [← hd0, hdir0, List.map_map]
    congr 1
    refine List.map_congr_left ?_
    intro p hp
    simp only [Function.comp]
    rw [dictGet_of_nodup agg hnd p hp]

/-- C7 witness: the matrix theorem applied to the concrete scenario
result, whose keys are distinct. -/
theorem generate_dependency_matrix_spec_witness :
    (demoOut.map Prod.fst).Nodup ∧
      (generate_dependency_matrix demoOut).head? =
        some ("Directory" :: demoOut.map Prod.fst) :=
  ⟨by decide, (generate_dependency_matrix_spec.1 demoOut (by decide)).1⟩

end ReqAgg
